import Mathlib

/-!
findprimes: the segmented sieve and the cycle-synchronised engine

A shallow embedding of `src/Main.cpp`.

* `find_primes` embeds `PrimeFinder::find_primes` (lines 124-153).
* `await_merge` embeds the last-arriver branch of `PrimeFinder::await` (lines 98-113).
* `PrimeFinder.new`, `start`, `cycle`, `run_cycles`, `run` embed the constructor, the set-up
  in `PrimeFinder::run` (lines 71-85) and the lock-step rounds performed by `ThreadProc`
  (lines 155-168).

Numbers are `Nat`.  The sieve is embedded without wrap-around: for `from <= to < 2^52` none of
the 64-bit expressions of `find_primes` can overflow and `(uint64_t) sqrt((double) to)` is the
exact floor square root, so on that domain the embedding and the source agree.  The merge step
keeps the 32-bit and 64-bit truncations of the source explicitly.

A worker's buffer is represented by the list of cells written during a call; its capacity is
not part of the sieve and engine model.  The floating-point size formula of line 76 is
treated separately (`buffer_capacity`), over the rationals.

The semaphore barrier of `await` is modelled separately as a step relation on a small
synchronisation state (`Barrier`), one step per scheduling decision.
-/

namespace FindPrimes

/-! ## The segment sieve -/

/-- Upward search for the floor square root: `r` grows while `(r+1)^2 <= n`. -/
def sqrt_loop : Nat → Nat → Nat → Nat
  | 0, r, _ => r
  | fuel + 1, r, n => if (r + 1) * (r + 1) ≤ n then sqrt_loop fuel (r + 1) n else r

/-- Models `uint64_t root = sqrt(to)` (line 127): the floor of the square root of `to`. -/
def sqrt (n : Nat) : Nat := sqrt_loop n 0 n

/-- The inner marking loop (lines 136-137):
`for (j = current; j <= to; j += i * 2) is_prime[(j - from) / 2] = false`.
The first argument bounds the number of iterations.  A write past the end of the marker
array (undefined in the source) leaves the array unchanged here. -/
def mark_multiples : Nat → Nat → Nat → Nat → Nat → List Bool → List Bool
  | 0, _, _, _, _, is_prime => is_prime
  | fuel + 1, i, j, from_, to_, is_prime =>
    if j ≤ to_ then
      mark_multiples fuel i (j + i * 2) from_ to_ (is_prime.set ((j - from_) / 2) false)
    else is_prime

/-- The first value the inner loop marks for the odd number `i` (lines 131-134). -/
def first_multiple (i from_ : Nat) : Nat :=
  let current := max (((from_ + i - 1) / i) * i) (i * i)
  if current % 2 = 0 then current + i else current

/-- The outer marking loop (lines 129-138): `for (i = 3; i <= root; i += 2)`.
The first argument bounds the number of iterations. -/
def sieve_loop : Nat → Nat → Nat → Nat → Nat → List Bool → List Bool
  | 0, _, _, _, _, is_prime => is_prime
  | fuel + 1, i, root, from_, to_, is_prime =>
    if i ≤ root then
      sieve_loop fuel (i + 2) root from_ to_
        (mark_multiples (to_ + 1) i (first_multiple i from_) from_ to_ is_prime)
    else is_prime

/-- The emission loop (lines 145-147): walks the marker array from index `i` on and appends
`current + i * 2` to the written cells for every entry still marked. -/
def emit_loop : List Bool → Nat → Nat → List Nat → List Nat
  | [], _, _, primes => primes
  | b :: rest, i, current, primes =>
    emit_loop rest (i + 1) current (if b then primes ++ [current + i * 2] else primes)

/-- The store `primes[0] = 2` (line 150) on the written cells. -/
def store_two : List Nat → List Nat
  | [] => [2]
  | _ :: rest => 2 :: rest

/-- The marker array after the marking phase (lines 126-138). -/
def markers (from_ to_ : Nat) : List Bool :=
  sieve_loop (sqrt to_) 3 (sqrt to_) from_ to_ (List.replicate ((to_ - from_ + 1) / 2) true)

/-- Embeds `PrimeFinder::find_primes` (lines 124-153).  Returns the count and the cells of
the buffer written by the call, starting at index 0. -/
def find_primes (from_ to_ : Nat) : Nat × List Nat :=
  let is_prime := markers from_ to_
  let current := if from_ % 2 = 0 then from_ + 1 else from_
  let primes := emit_loop is_prime 0 current []
  let count := primes.length
  let primes := if from_ ≤ 2 then store_two primes else primes
  (count, primes)

/-- The cells written by the emission loop of `find_primes` (lines 140-147), before the
store of line 150. -/
def emitted (from_ to_ : Nat) : List Nat :=
  emit_loop (markers from_ to_) 0 (if from_ % 2 = 0 then from_ + 1 else from_) []

/-- The values of `buffer[0..count)` after `find_primes(from, to, buffer)`. -/
def found_primes (from_ to_ : Nat) : List Nat :=
  (find_primes from_ to_).2.take (find_primes from_ to_).1

/-! ## The engine -/

/-- Per-worker state (`struct ThreadParam`, lines 14-24).  `buffer` holds the cells written
by the worker's latest sieve call. -/
structure ThreadParam where
  from_ : Nat
  to_ : Nat
  count : Nat
  cycle_size : Nat
  buffer : List Nat
deriving DecidableEq, Repr

/-- The engine (`class PrimeFinder`, lines 31-53) without its thread handles, semaphore and
arrival counter; `output` is the sequence of numbers written to `output_` so far. -/
structure PrimeFinder where
  parties : Nat
  task : Nat
  found : Nat
  terminated : Bool
  output : List Nat
  params : List ThreadParam
deriving DecidableEq, Repr

/-- The constructor (lines 55-63): stores its arguments, `found_ = 0`, `terminated_ = false`.
It contains no check of its arguments. -/
def PrimeFinder.new (task parties : Nat) : PrimeFinder :=
  { parties := parties, task := task, found := 0, terminated := false, output := [],
    params := [] }

/-- One iteration of the merge loop of `await` (lines 102-110) for the worker `p`, guarded
by the loop condition `!terminated_` (line 100).  `count` is an `unsigned int`, `found_`
and `task_` are 64-bit; `copy_n` appends the first `count` cells of the worker's buffer. -/
def merge_step (pf : PrimeFinder) (p : ThreadParam) : PrimeFinder :=
  if pf.terminated then pf
  else
    let count := p.count % 2 ^ 32
    let found := (pf.found + count) % 2 ^ 64
    if found ≥ pf.task then
      let count := ((count + 2 ^ 64 - (found - pf.task)) % 2 ^ 64) % 2 ^ 32
      { pf with found := found, terminated := true,
                output := pf.output ++ p.buffer.take count }
    else
      { pf with found := found, output := pf.output ++ p.buffer.take count }

/-- The last-arriver branch of `await` (lines 100-111) over the workers in index order. -/
def await_merge (pf : PrimeFinder) (ps : List ThreadParam) : PrimeFinder :=
  ps.foldl merge_step pf

/-- The cycle width chosen by `run` (lines 71-72):
`std::min(1024 * 1024, static_cast<unsigned int>(task_))`. -/
def cycle_size (task : Nat) : Nat := min (1024 * 1024) (task % 2 ^ 32)

/-- The per-worker width chosen by `run` (line 73): `cycle_size / parties_`. -/
def range_size (task parties : Nat) : Nat := cycle_size task / parties

/-- The set-up loop of `run` (lines 77-85): worker `i` starts on
`[i * range_size, i * range_size + range_size]`.
The allocation of the buffers (lines 75-76) is not part of this state: every buffer is
taken to hold whatever its worker stores.  In the source a per-worker width of 0 or 1
gives buffers of 0 cells, so that there the stores of lines 147 and 150 fall outside the
buffer and the rounds below describe the source only up to the first sieve call. -/
def PrimeFinder.start (pf : PrimeFinder) : PrimeFinder :=
  { pf with params := (List.range pf.parties).map fun i =>
      { from_ := i * range_size pf.task pf.parties,
        to_ := i * range_size pf.task pf.parties + range_size pf.task pf.parties,
        count := 0,
        cycle_size := cycle_size pf.task,
        buffer := [] } }

/-- The sieve call of `ThreadProc` (line 161). -/
def ThreadParam.sieve (p : ThreadParam) : ThreadParam :=
  { p with count := (find_primes p.from_ p.to_).1, buffer := (find_primes p.from_ p.to_).2 }

/-- The range advance of `ThreadProc` (lines 163-164). -/
def ThreadParam.advance (p : ThreadParam) : ThreadParam :=
  { p with from_ := p.from_ + p.cycle_size, to_ := p.to_ + p.cycle_size }

/-- One synchronised round: every worker sieves its segment, the last arriver merges all
buffers in index order, every worker advances its range. -/
def PrimeFinder.cycle (pf : PrimeFinder) : PrimeFinder :=
  let sieved := pf.params.map ThreadParam.sieve
  { await_merge pf sieved with params := sieved.map ThreadParam.advance }

/-- The worker loops `while (!param->finder.terminated())` (line 159) in lock step, for at
most the given number of rounds. -/
def run_cycles : Nat → PrimeFinder → PrimeFinder
  | 0, pf => pf
  | n + 1, pf => if pf.terminated then pf else run_cycles n pf.cycle

/-- Embeds `PrimeFinder::run` for at most `fuel` rounds.  With `parties_ = 0` line 73 divides
by zero, which has no defined result: `none`. -/
def PrimeFinder.run (fuel : Nat) (pf : PrimeFinder) : Option PrimeFinder :=
  if pf.parties = 0 then none else some (run_cycles fuel pf.start)

/-- The numbers written by an engine constructed with `task` and `parties` and run for at
most `fuel` rounds (empty when the run has no defined result). -/
def run_output (fuel task parties : Nat) : List Nat :=
  match (PrimeFinder.new task parties).run fuel with
  | some pf => pf.output
  | none => []

/-- Whether the run of an engine constructed with `task` and `parties` has set `terminated_`
within `fuel` rounds. -/
def run_terminated (fuel task parties : Nat) : Bool :=
  match (PrimeFinder.new task parties).run fuel with
  | some pf => pf.terminated
  | none => false

/-- Successive merges, one per round, each over that round's worker states. -/
def merges (pf : PrimeFinder) (rounds : List (List ThreadParam)) : PrimeFinder :=
  rounds.foldl await_merge pf

/-- What the merge loop maintains: the number of values written is `min found task`, an
unterminated engine has `found <= task`, a terminated one has `task <= found`. -/
def MergeInv (pf : PrimeFinder) : Prop :=
  pf.output.length = min pf.found pf.task ∧
  (pf.terminated = false → pf.found ≤ pf.task) ∧
  (pf.terminated = true → pf.task ≤ pf.found)

/-- The closed segment `(from, to)` held by worker `i` when it starts its round number `c`
(rounds counted from 0): the worker state set up by `run` and advanced `c` times. -/
def segment (task parties i c : Nat) : Option (Nat × Nat) :=
  ((PrimeFinder.cycle^[c] (PrimeFinder.new task parties).start).params[i]?).map
    fun p => (p.from_, p.to_)

/-- Whether `n` lies in the closed segment of worker `i` in round `c`. -/
def in_segment (task parties i c n : Nat) : Bool :=
  match segment task parties i c with
  | some (lo, hi) => decide (lo ≤ n ∧ n ≤ hi)
  | none => false

/-- An engine that has written nothing, has not terminated, has a positive target and
whose workers all hold one-point segments. -/
def Stuck (pf : PrimeFinder) : Prop :=
  1 ≤ pf.task ∧ pf.found = 0 ∧ pf.terminated = false ∧ pf.output = [] ∧
  ∀ p ∈ pf.params, p.from_ = p.to_

/-! ## The marker array: its size, the indices written, the values visited -/

/-- The size of the marker array allocated on line 126: `(to - from + 1) / 2`. -/
def marker_size (from_ to_ : Nat) : Nat := (to_ - from_ + 1) / 2

/-- The indices `(j - from) / 2` written by the inner marking loop (lines 136-137), in the
order in which they are written. -/
def mark_writes : Nat → Nat → Nat → Nat → Nat → List Nat
  | 0, _, _, _, _ => []
  | fuel + 1, i, j, from_, to_ =>
    if j ≤ to_ then (j - from_) / 2 :: mark_writes fuel i (j + i * 2) from_ to_ else []

/-- The indices written by the outer marking loop (lines 129-138), in order. -/
def sieve_writes : Nat → Nat → Nat → Nat → Nat → List Nat
  | 0, _, _, _, _ => []
  | fuel + 1, i, root, from_, to_ =>
    if i ≤ root then
      mark_writes (to_ + 1) i (first_multiple i from_) from_ to_ ++
        sieve_writes fuel (i + 2) root from_ to_
    else []

/-- All marker indices written by one call of `find_primes`, in order. -/
def marker_writes (from_ to_ : Nat) : List Nat :=
  sieve_writes (sqrt to_) 3 (sqrt to_) from_ to_

/-- The values `current + i * 2` that the emission loop (lines 140-147) looks at, one for
each index `i` of the marker array. -/
def visited_values (from_ to_ : Nat) : List Nat :=
  (List.range (markers from_ to_).length).map
    fun i => (if from_ % 2 = 0 then from_ + 1 else from_) + i * 2

/-- The ascending list of the primes `p` with `from <= p <= to`. -/
def primes_in (from_ to_ : Nat) : List Nat :=
  (List.range' from_ (to_ + 1 - from_)).filter fun p => decide (Nat.Prime p)

/-! ## Invariants of a run over even segments -/

/-- One worker thread as seen by the barrier: whether it has decremented `count_` and
stands at `WaitForSingleObject` (line 116), how many times it has called `await`, and how
many times `await` has returned to it. -/
structure Worker where
  waiting : Bool
  calls : Nat
  returns : Nat
deriving DecidableEq, Repr

/-- The synchronisation state of the engine: `parties_`, the arrival counter `count_`
(a `LONG`), the current count of `semaphore_`, the number of times the merge branch
(lines 100-113) has run, and the workers. -/
structure Barrier where
  parties : Nat
  count_ : Int
  semaphore : Nat
  merges : Nat
  workers : List Worker
deriving DecidableEq, Repr

/-- The state set up by the constructor and `run` (lines 57, 67): `count_ = parties_`, a
semaphore created with initial count 0, no worker inside `await`. -/
def Barrier.init (parties : Nat) : Barrier :=
  { parties := parties, count_ := parties, semaphore := 0, merges := 0,
    workers := List.replicate parties { waiting := false, calls := 0, returns := 0 } }

/-- `ReleaseSemaphore(semaphore_, n, 0)` on a semaphore created with maximum `parties_`
(line 67): the count grows by `n`, unless `n` is 0 or the maximum would be exceeded, in
which case the call fails and the count is unchanged. -/
def release (parties semaphore n : Nat) : Nat :=
  if n = 0 ∨ parties < semaphore + n then semaphore else semaphore + n

/-- One scheduling step of worker `w`, `none` when it cannot move.
A worker outside `await` calls it: `InterlockedDecrement(&count_)` (line 98); if the result
is 0 it runs the merge, resets `count_`, releases `parties_ - 1` permits and returns (lines
100-113, taken as one step); otherwise it is left standing before `WaitForSingleObject`.
A worker standing there takes a permit and returns when the semaphore count is positive,
and cannot move otherwise.  The loop condition of `ThreadProc` is not part of the state:
the schedules considered lie in rounds in which `terminated_` is still false. -/
def Barrier.step (b : Barrier) (w : Nat) : Option Barrier :=
  match b.workers[w]? with
  | none => none
  | some t =>
    if t.waiting then
      if b.semaphore = 0 then none
      else some { b with
        semaphore := b.semaphore - 1,
        workers := b.workers.set w { t with waiting := false, returns := t.returns + 1 } }
    else if b.count_ - 1 = 0 then
      some { b with
        count_ := b.parties,
        semaphore := release b.parties b.semaphore (b.parties - 1),
        merges := b.merges + 1,
        workers := b.workers.set w { t with calls := t.calls + 1, returns := t.returns + 1 } }
    else
      some { b with
        count_ := b.count_ - 1,
        workers := b.workers.set w { t with waiting := true, calls := t.calls + 1 } }

/-- The state reached by letting the workers move in the order of the schedule. -/
def Barrier.exec (b : Barrier) : List Nat → Option Barrier
  | [] => some b
  | w :: rest => match b.step w with
    | none => none
    | some b' => b'.exec rest

/-- The barrier property at one state: no worker has had more returns from `await` than
any worker has made calls, nor more returns than merges have run. -/
def Barrier.safe (b : Barrier) : Bool :=
  b.workers.all fun t =>
    decide (t.returns ≤ b.merges) && b.workers.all fun v => decide (t.returns ≤ v.calls)

/-! ## The capacity of a worker's buffer -/

/-- The constant `1.09f` (line 76): the single-precision number nearest to 1.09. -/
def density_constant : ℚ := 9143583 / 8388608

/-- The buffer size `range_size / (log(range_size) - 1.09f)` of line 76, converted to an
unsigned size, computed over the rationals from the value `log_range` of
`log(range_size)`.  The conversion discards the fractional part; it has no defined result
(`none`) when the quotient is not finite or is -1 or less. -/
def buffer_capacity (log_range : ℚ) (range_size : Nat) : Option Nat :=
  if log_range - density_constant = 0 then none
  else
    let q : ℚ := (range_size : ℚ) / (log_range - density_constant)
    if q ≤ -1 then none else some (Int.toNat ⌊q⌋)

/-! ## The loop bounds are never what stops a loop -/

theorem sqrt_loop_eq (fuel r n : Nat) (hr : r * r ≤ n) (hf : Nat.sqrt n ≤ r + fuel) :
    sqrt_loop fuel r n = Nat.sqrt n := by
  induction fuel generalizing r with
  | zero =>
    have h1 : r ≤ Nat.sqrt n := Nat.le_sqrt.2 hr
    simp only [sqrt_loop]
    omega
  | succ fuel ih =>
    unfold sqrt_loop
    split_ifs with h
    · exact ih (r + 1) h (by omega)
    · have h1 : r ≤ Nat.sqrt n := Nat.le_sqrt.2 hr
      have h2 : Nat.sqrt n < r + 1 := Nat.sqrt_lt.2 (by omega)
      omega

/-- The root used by the sieve is the floor square root. -/
theorem sqrt_eq (n : Nat) : sqrt n = Nat.sqrt n :=
  sqrt_loop_eq n 0 n (Nat.zero_le _) (by have := Nat.sqrt_le_self n; omega)

/-- Once the bound covers the distance to `to`, a larger bound gives the same marker
array: the inner loop ends by its own condition `j <= to`. -/
theorem mark_multiples_fuel (fuel extra i j from_ to_ : Nat) (bs : List Bool) (hi : 1 ≤ i)
    (h : to_ + 1 ≤ j + fuel) :
    mark_multiples (fuel + extra) i j from_ to_ bs = mark_multiples fuel i j from_ to_ bs := by
  induction fuel generalizing j bs with
  | zero =>
    have hj : ¬ j ≤ to_ := by omega
    cases extra with
    | zero => rfl
    | succ e => simp [mark_multiples, hj]
  | succ fuel ih =>
    rw [Nat.add_right_comm]
    unfold mark_multiples
    split_ifs
    · exact ih _ _ (by omega)
    · rfl

/-- Once the bound covers the odd numbers up to `root`, a larger bound gives the same
marker array: the outer loop ends by its own condition `i <= root`. -/
theorem sieve_loop_fuel (fuel extra i root from_ to_ : Nat) (bs : List Bool)
    (h : root + 1 ≤ i + 2 * fuel) :
    sieve_loop (fuel + extra) i root from_ to_ bs = sieve_loop fuel i root from_ to_ bs := by
  induction fuel generalizing i bs with
  | zero =>
    have hi : ¬ i ≤ root := by omega
    cases extra with
    | zero => rfl
    | succ e => simp [sieve_loop, hi]
  | succ fuel ih =>
    rw [Nat.add_right_comm]
    unfold sieve_loop
    split_ifs
    · exact ih _ _ (by omega)
    · rfl

/-! ## Basic facts about the rounds -/

theorem run_cycles_terminated (n : Nat) (pf : PrimeFinder) (h : pf.terminated = true) :
    run_cycles n pf = pf := by
  cases n with
  | zero => rfl
  | succ n => simp [run_cycles, h]

theorem run_cycles_add (m n : Nat) (pf : PrimeFinder) :
    run_cycles (m + n) pf = run_cycles n (run_cycles m pf) := by
  induction m generalizing pf with
  | zero => simp [run_cycles]
  | succ m ih =>
    rw [Nat.succ_add]
    by_cases h : pf.terminated = true
    · simp [run_cycles, h, run_cycles_terminated]
    · simp [run_cycles, h, ih]

theorem merge_step_terminated (pf : PrimeFinder) (p : ThreadParam)
    (h : pf.terminated = true) : merge_step pf p = pf := by
  simp [merge_step, h]

theorem await_merge_terminated (pf : PrimeFinder) (ps : List ThreadParam)
    (h : pf.terminated = true) : await_merge pf ps = pf := by
  induction ps with
  | nil => rfl
  | cons p ps ih =>
    simp only [await_merge, List.foldl_cons, merge_step_terminated pf p h]
    exact ih

theorem await_merge_append (pf : PrimeFinder) (ps qs : List ThreadParam) :
    await_merge pf (ps ++ qs) = await_merge (await_merge pf ps) qs := by
  simp [await_merge, List.foldl_append]

/-! ## The merge and its clamp -/

theorem merge_step_task (pf : PrimeFinder) (p : ThreadParam) :
    (merge_step pf p).task = pf.task := by
  unfold merge_step
  dsimp only
  split_ifs <;> rfl

theorem await_merge_task (pf : PrimeFinder) (ps : List ThreadParam) :
    (await_merge pf ps).task = pf.task := by
  induction ps generalizing pf with
  | nil => rfl
  | cons p ps ih =>
    simp only [await_merge, List.foldl_cons] at ih ⊢
    rw [ih, merge_step_task]

theorem merge_step_inv (pf : PrimeFinder) (p : ThreadParam)
    (hrange : pf.task + 2 ^ 32 ≤ 2 ^ 64) (hbuf : p.count % 2 ^ 32 ≤ p.buffer.length)
    (h : MergeInv pf) : MergeInv (merge_step pf p) := by
  obtain ⟨hlen, hlo, hhi⟩ := h
  by_cases ht : pf.terminated = true
  · rw [merge_step_terminated pf p ht]
    exact ⟨hlen, hlo, hhi⟩
  · have htf : pf.terminated = false := by simpa using ht
    have hle := hlo htf
    have hc : p.count % 2 ^ 32 < 2 ^ 32 := Nat.mod_lt _ (by norm_num)
    have hnw : (pf.found + p.count % 2 ^ 32) % 2 ^ 64 = pf.found + p.count % 2 ^ 32 :=
      Nat.mod_eq_of_lt (by omega)
    unfold merge_step
    simp only [htf, Bool.false_eq_true, if_false, hnw]
    by_cases hge : pf.found + p.count % 2 ^ 32 ≥ pf.task
    · have hclamp : ((p.count % 2 ^ 32 + 2 ^ 64 - (pf.found + p.count % 2 ^ 32 - pf.task))
          % 2 ^ 64) % 2 ^ 32 = pf.task - pf.found := by
        have e : p.count % 2 ^ 32 + 2 ^ 64 - (pf.found + p.count % 2 ^ 32 - pf.task)
            = (pf.task - pf.found) + 2 ^ 64 := by omega
        rw [e, Nat.add_mod_right, Nat.mod_eq_of_lt (by omega), Nat.mod_eq_of_lt (by omega)]
      simp only [hge, if_true, hclamp]
      unfold MergeInv
      dsimp only
      refine ⟨?_, by simp, fun _ => hge⟩
      simp only [List.length_append, List.length_take, hlen]
      omega
    · simp only [hge, if_false]
      unfold MergeInv
      dsimp only
      refine ⟨?_, fun _ => by omega, fun h' => by simp [htf] at h'⟩
      simp only [List.length_append, List.length_take, hlen]
      omega

theorem await_merge_inv (pf : PrimeFinder) (ps : List ThreadParam)
    (hrange : pf.task + 2 ^ 32 ≤ 2 ^ 64)
    (hbuf : ∀ p ∈ ps, p.count % 2 ^ 32 ≤ p.buffer.length)
    (h : MergeInv pf) : MergeInv (await_merge pf ps) := by
  induction ps generalizing pf with
  | nil => exact h
  | cons p ps ih =>
    simp only [await_merge, List.foldl_cons]
    apply ih
    · rw [merge_step_task]; exact hrange
    · exact fun q hq => hbuf q (List.mem_cons_of_mem _ hq)
    · exact merge_step_inv pf p hrange (hbuf p (List.mem_cons_self _ _)) h

theorem merges_inv (pf : PrimeFinder) (rounds : List (List ThreadParam))
    (hrange : pf.task + 2 ^ 32 ≤ 2 ^ 64)
    (hbuf : ∀ ps ∈ rounds, ∀ p ∈ ps, p.count % 2 ^ 32 ≤ p.buffer.length)
    (h : MergeInv pf) : MergeInv (merges pf rounds) ∧ (merges pf rounds).task = pf.task := by
  induction rounds generalizing pf with
  | nil => exact ⟨h, rfl⟩
  | cons ps rounds ih =>
    simp only [merges, List.foldl_cons]
    have := ih (await_merge pf ps) (by rw [await_merge_task]; exact hrange)
      (fun qs hqs => hbuf qs (List.mem_cons_of_mem _ hqs))
      (await_merge_inv pf ps hrange (hbuf ps (List.mem_cons_self _ _)) h)
    rw [await_merge_task] at this
    exact this

/-- C3: starting from `found = 0`, `terminated = false`, after any sequence of merges over
any per-worker counts (each worker's buffer holding at least `count` cells, and `task` at
most `2^64 - 2^32` so that the 64-bit total cannot wrap), the number of values written
never exceeds `task`, and it is exactly `task` as soon as `found` has reached `task`,
which is the case whenever `terminated` is set. -/
theorem merge_emits_exactly_task (task parties : Nat) (rounds : List (List ThreadParam))
    (hrange : task + 2 ^ 32 ≤ 2 ^ 64)
    (hbuf : ∀ ps ∈ rounds, ∀ p ∈ ps, p.count % 2 ^ 32 ≤ p.buffer.length) :
    (merges (PrimeFinder.new task parties) rounds).output.length ≤ task ∧
    (task ≤ (merges (PrimeFinder.new task parties) rounds).found →
      (merges (PrimeFinder.new task parties) rounds).output.length = task) ∧
    ((merges (PrimeFinder.new task parties) rounds).terminated = true →
      task ≤ (merges (PrimeFinder.new task parties) rounds).found) := by
  have h0 : MergeInv (PrimeFinder.new task parties) := by
    simp [MergeInv, PrimeFinder.new]
  obtain ⟨⟨hlen, _, hhi⟩, htask⟩ := merges_inv (PrimeFinder.new task parties) rounds hrange hbuf h0
  have htask' : (merges (PrimeFinder.new task parties) rounds).task = task := htask
  rw [htask'] at hlen hhi
  refine ⟨by omega, fun h => by omega, hhi⟩

theorem merge_emits_exactly_task_witness :
    (merges (PrimeFinder.new 3 2)
      [[{ from_ := 0, to_ := 4, count := 2, cycle_size := 8, buffer := [2, 3] },
        { from_ := 4, to_ := 8, count := 2, cycle_size := 8, buffer := [5, 7] }]]).output.length
      ≤ 3 ∧
    (3 ≤ (merges (PrimeFinder.new 3 2)
      [[{ from_ := 0, to_ := 4, count := 2, cycle_size := 8, buffer := [2, 3] },
        { from_ := 4, to_ := 8, count := 2, cycle_size := 8, buffer := [5, 7] }]]).found →
      (merges (PrimeFinder.new 3 2)
      [[{ from_ := 0, to_ := 4, count := 2, cycle_size := 8, buffer := [2, 3] },
        { from_ := 4, to_ := 8, count := 2, cycle_size := 8, buffer := [5, 7] }]]).output.length
        = 3) ∧
    ((merges (PrimeFinder.new 3 2)
      [[{ from_ := 0, to_ := 4, count := 2, cycle_size := 8, buffer := [2, 3] },
        { from_ := 4, to_ := 8, count := 2, cycle_size := 8, buffer := [5, 7] }]]).terminated
        = true →
      3 ≤ (merges (PrimeFinder.new 3 2)
      [[{ from_ := 0, to_ := 4, count := 2, cycle_size := 8, buffer := [2, 3] },
        { from_ := 4, to_ := 8, count := 2, cycle_size := 8, buffer := [5, 7] }]]).found) :=
  merge_emits_exactly_task 3 2 _ (by norm_num) (by decide)

/-- C5: a merge entered with `terminated` set writes nothing, leaves `found` unchanged
and leaves `terminated` set; once a prefix of the workers has set `terminated`, the
workers after it in the same merge write nothing; and the worker loops started from a
terminated engine do no further round. -/
theorem terminated_is_final :
    (∀ (pf : PrimeFinder) (ps : List ThreadParam), pf.terminated = true →
      (await_merge pf ps).output = pf.output ∧ (await_merge pf ps).found = pf.found ∧
      (await_merge pf ps).terminated = true) ∧
    (∀ (pf : PrimeFinder) (pre post : List ThreadParam),
      (await_merge pf pre).terminated = true →
      (await_merge pf (pre ++ post)).output = (await_merge pf pre).output) ∧
    (∀ (n : Nat) (pf : PrimeFinder), pf.terminated = true → run_cycles n pf = pf) := by
  refine ⟨fun pf ps h => ?_, fun pf pre post h => ?_, fun n pf h => run_cycles_terminated n pf h⟩
  · rw [await_merge_terminated pf ps h]
    exact ⟨rfl, rfl, h⟩
  · rw [await_merge_append, await_merge_terminated _ post h]

theorem terminated_is_final_witness :
    (await_merge (PrimeFinder.new 1 2)
      ([{ from_ := 0, to_ := 4, count := 2, cycle_size := 8, buffer := [2, 3] }] ++
       [{ from_ := 4, to_ := 8, count := 2, cycle_size := 8, buffer := [5, 7] }])).output
      = [2] :=
  (terminated_is_final.2.1 (PrimeFinder.new 1 2)
    [{ from_ := 0, to_ := 4, count := 2, cycle_size := 8, buffer := [2, 3] }]
    [{ from_ := 4, to_ := 8, count := 2, cycle_size := 8, buffer := [5, 7] }]
    (by decide)).trans (by decide)

/-! ## Runs that cannot progress, and degenerate configurations -/

theorem mark_multiples_nil (fuel i j from_ to_ : Nat) :
    mark_multiples fuel i j from_ to_ [] = [] := by
  induction fuel generalizing j with
  | zero => rfl
  | succ fuel ih =>
    unfold mark_multiples
    split_ifs
    · simpa using ih _
    · rfl

theorem sieve_loop_nil (fuel i root from_ to_ : Nat) :
    sieve_loop fuel i root from_ to_ [] = [] := by
  induction fuel generalizing i with
  | zero => rfl
  | succ fuel ih =>
    unfold sieve_loop
    split_ifs
    · rw [mark_multiples_nil]; exact ih _
    · rfl

theorem find_primes_point_count (k : Nat) : (find_primes k k).1 = 0 := by
  simp [find_primes, markers, sieve_loop_nil, emit_loop]

theorem merge_step_params (pf : PrimeFinder) (p : ThreadParam) :
    (merge_step pf p).params = pf.params := by
  unfold merge_step
  dsimp only
  split_ifs <;> rfl

theorem await_merge_params (pf : PrimeFinder) (ps : List ThreadParam) :
    (await_merge pf ps).params = pf.params := by
  induction ps generalizing pf with
  | nil => rfl
  | cons p ps ih =>
    simp only [await_merge, List.foldl_cons] at ih ⊢
    rw [ih, merge_step_params]

theorem await_merge_zero_counts (pf : PrimeFinder) (ps : List ThreadParam)
    (htask : 1 ≤ pf.task) (hfound : pf.found = 0) (hterm : pf.terminated = false)
    (hcount : ∀ p ∈ ps, p.count = 0) : await_merge pf ps = pf := by
  induction ps with
  | nil => rfl
  | cons p ps ih =>
    have hstep : merge_step pf p = pf := by
      have hc : p.count = 0 := hcount p (List.mem_cons_self _ _)
      have hlt : ¬ pf.task ≤ 0 := by omega
      cases pf with
      | mk parties task found terminated output params =>
        simp only at hfound hterm hlt
        subst hfound hterm
        simp [merge_step, hc, hlt]
    simp only [await_merge, List.foldl_cons, hstep]
    exact ih (fun q hq => hcount q (List.mem_cons_of_mem _ hq))

theorem stuck_cycle (pf : PrimeFinder) (h : Stuck pf) : Stuck pf.cycle := by
  obtain ⟨htask, hfound, hterm, hout, hseg⟩ := h
  have hm : await_merge pf (pf.params.map ThreadParam.sieve) = pf := by
    apply await_merge_zero_counts pf _ htask hfound hterm
    intro q hq
    obtain ⟨p, hp, rfl⟩ := List.mem_map.1 hq
    simp only [ThreadParam.sieve, hseg p hp]
    exact find_primes_point_count _
  unfold PrimeFinder.cycle
  simp only [hm]
  refine ⟨htask, hfound, hterm, hout, ?_⟩
  intro q hq
  simp only [List.map_map, List.mem_map, Function.comp] at hq
  obtain ⟨p, hp, rfl⟩ := hq
  simp [ThreadParam.advance, ThreadParam.sieve, hseg p hp]

theorem stuck_run_cycles (n : Nat) (pf : PrimeFinder) (h : Stuck pf) :
    Stuck (run_cycles n pf) := by
  induction n generalizing pf with
  | zero => exact h
  | succ n ih =>
    simp only [run_cycles, h.2.2.1, Bool.false_eq_true, if_false]
    exact ih _ (stuck_cycle pf h)

theorem stuck_start (task parties : Nat) (htask : 1 ≤ task)
    (hrange : range_size task parties = 0) : Stuck (PrimeFinder.new task parties).start := by
  refine ⟨htask, rfl, rfl, rfl, ?_⟩
  intro p hp
  simp only [PrimeFinder.start, PrimeFinder.new, List.mem_map] at hp
  obtain ⟨i, _, rfl⟩ := hp
  simp [hrange]

/-- C6: the run with task 1 and two workers never sets `terminated` and never writes
anything, however many rounds it is given: every segment is a single point and every
count is 0.  (In the source the buffers of this configuration have 0 cells, so the store
of line 150 in the first sieve call already falls outside the buffer; with a buffer that
holds the store the run goes on as stated.) -/
theorem run_one_two_never_stops (n : Nat) :
    run_terminated n 1 2 = false ∧ run_output n 1 2 = [] := by
  have h := stuck_run_cycles n _ (stuck_start 1 2 (by norm_num) (by decide))
  simp only [run_terminated, run_output, PrimeFinder.run, PrimeFinder.new] at h ⊢
  exact ⟨h.2.2.1, h.2.2.2.1⟩

/-- C8, as the code has it: the constructor stores any arguments, zero included, and
yields an engine with `found = 0`, `terminated = false`, nothing written and no worker set
up; a party count of zero is met only by `run`, at its division by the party count. -/
theorem construction_never_rejects (task parties n : Nat) :
    PrimeFinder.new task parties =
      { parties := parties, task := task, found := 0, terminated := false, output := [],
        params := [] } ∧
    (PrimeFinder.new task 0).run n = none := by
  exact ⟨rfl, by simp [PrimeFinder.run, PrimeFinder.new]⟩

/-- C8 as stated fails: an engine is constructed with task 0 and `run` goes on to set up
its worker, on the segment [0, 0]; an engine is constructed with 0 workers as well, and
the failure is the division in `run`. -/
theorem construction_accepts_zero :
    PrimeFinder.new 0 1 =
      { parties := 1, task := 0, found := 0, terminated := false, output := [],
        params := [] } ∧
    (PrimeFinder.new 0 1).start.params =
      [{ from_ := 0, to_ := 0, count := 0, cycle_size := 0, buffer := [] }] ∧
    PrimeFinder.new 1 0 =
      { parties := 0, task := 1, found := 0, terminated := false, output := [],
        params := [] } ∧
    (PrimeFinder.new 1 0).run 1 = none := by
  decide

/-! ## The segments of the workers -/

theorem cycle_params (pf : PrimeFinder) :
    pf.cycle.params = pf.params.map fun p => p.sieve.advance := by
  simp [PrimeFinder.cycle, List.map_map, Function.comp_def]

theorem iterate_cycle_bounds (c : Nat) (pf : PrimeFinder) :
    (PrimeFinder.cycle^[c] pf).params.map (fun p => (p.from_, p.to_, p.cycle_size)) =
      pf.params.map
        (fun p => (p.from_ + c * p.cycle_size, p.to_ + c * p.cycle_size, p.cycle_size)) := by
  induction c with
  | zero => simp
  | succ c ih =>
    rw [Function.iterate_succ_apply', cycle_params, List.map_map]
    have h : ((fun p : ThreadParam => (p.from_, p.to_, p.cycle_size)) ∘
          fun p : ThreadParam => p.sieve.advance) =
        (fun t : Nat × Nat × Nat => (t.1 + t.2.2, t.2.1 + t.2.2, t.2.2)) ∘
          fun p : ThreadParam => (p.from_, p.to_, p.cycle_size) := by
      funext p
      simp [ThreadParam.advance, ThreadParam.sieve]
    rw [h, ← List.map_map, ih, List.map_map]
    apply List.map_congr_left
    intro p _
    simp only [Function.comp, Prod.mk.injEq, and_true]
    constructor <;> ring

theorem segment_eq (task parties i c : Nat) :
    segment task parties i c =
      if i < parties then
        some (i * range_size task parties + c * cycle_size task,
              i * range_size task parties + range_size task parties + c * cycle_size task)
      else none := by
  have h := congrArg (fun l => l[i]?)
    (iterate_cycle_bounds c (PrimeFinder.new task parties).start)
  simp only [List.getElem?_map] at h
  have hseg : segment task parties i c =
      (((PrimeFinder.cycle^[c] (PrimeFinder.new task parties).start).params[i]?).map
        (fun p => (p.from_, p.to_, p.cycle_size))).map (fun t => (t.1, t.2.1)) := by
    simp [segment, Option.map_map, Function.comp_def]
  rw [hseg, h]
  by_cases hi : i < parties
  · simp [PrimeFinder.start, PrimeFinder.new, List.getElem?_range hi, hi]
  · have hnone : (PrimeFinder.new task parties).start.params[i]? = none := by
      apply List.getElem?_eq_none
      simp [PrimeFinder.start, PrimeFinder.new]
      omega
    simp [hnone, hi]

theorem in_segment_iff (task parties i c n : Nat) :
    in_segment task parties i c n = true ↔
      i < parties ∧ i * range_size task parties + c * cycle_size task ≤ n ∧
      n ≤ i * range_size task parties + range_size task parties + c * cycle_size task := by
  unfold in_segment
  rw [segment_eq]
  by_cases hi : i < parties <;> simp [hi]

/-- When `parties` divides the cycle width and the per-worker width is at least 1, every
number lies in the segment of some worker in some round, and only multiples of the
per-worker width lie in more than one segment. -/
theorem segments_cover (task parties n : Nat)
    (hdiv : parties * range_size task parties = cycle_size task)
    (hpos : 1 ≤ range_size task parties) :
    (∃ i c, in_segment task parties i c n = true) ∧
    (¬ range_size task parties ∣ n → ∀ i c i' c',
      in_segment task parties i c n = true → in_segment task parties i' c' n = true →
      i = i' ∧ c = c') := by
  have hP : 0 < parties := by
    rcases Nat.eq_zero_or_pos parties with h0 | h0
    · simp [range_size, h0] at hpos
    · exact h0
  generalize hr : range_size task parties = r at hdiv hpos ⊢
  have hkey : ∀ i c, in_segment task parties i c n = true ↔
      i < parties ∧ (i + c * parties) * r ≤ n ∧ n ≤ (i + c * parties) * r + r := by
    intro i c
    rw [in_segment_iff, hr, ← hdiv]
    have e : i * r + c * (parties * r) = (i + c * parties) * r := by ring
    have e' : i * r + r + c * (parties * r) = (i + c * parties) * r + r := by ring
    rw [e, e']
  constructor
  · refine ⟨(n / r) % parties, (n / r) / parties, ?_⟩
    rw [hkey]
    have hg : (n / r) % parties + (n / r) / parties * parties = n / r := Nat.mod_add_div' _ _
    rw [hg]
    exact ⟨Nat.mod_lt _ hP, Nat.div_mul_le_self n r, (Nat.lt_div_mul_add hpos).le⟩
  · intro hnd i c i' c' h1 h2
    rw [hkey] at h1 h2
    have hidx : ∀ g, g * r ≤ n → n ≤ g * r + r → g = n / r := by
      intro g hlo hhi
      have hne : n ≠ g * r + r := by
        intro heq
        apply hnd
        exact ⟨g + 1, by rw [heq]; ring⟩
      have hne' : n ≠ g * r := by
        intro heq
        apply hnd
        exact ⟨g, by rw [heq]; ring⟩
      symm
      apply Nat.div_eq_of_lt_le hlo
      have : (g + 1) * r = g * r + r := by ring
      omega
    have hG := (hidx _ h1.2.1 h1.2.2).trans (hidx _ h2.2.1 h2.2.2).symm
    have hmod := congrArg (· % parties) hG
    have hdivd := congrArg (· / parties) hG
    simp only [Nat.add_mul_mod_self_right, Nat.mod_eq_of_lt h1.1, Nat.mod_eq_of_lt h2.1] at hmod
    simp only [Nat.add_mul_div_right _ _ hP, Nat.div_eq_of_lt h1.1, Nat.div_eq_of_lt h2.1,
      Nat.zero_add] at hdivd
    exact ⟨hmod, hdivd⟩

/-- With task 10 and one worker, the number 10 lies both in the segment [0, 10] of round 0
and in the segment [10, 20] of round 1. -/
theorem segments_share_endpoint :
    segment 10 1 0 0 = some (0, 10) ∧ segment 10 1 0 1 = some (10, 20) ∧
    ¬ ∀ n : Nat, ∃! ic : Nat × Nat, in_segment 10 1 ic.1 ic.2 n = true := by
  refine ⟨by decide, by decide, fun h => ?_⟩
  obtain ⟨ic, _, huniq⟩ := h 10
  have a := huniq ((0 : Nat), (0 : Nat)) (by decide)
  have b := huniq ((0 : Nat), (1 : Nat)) (by decide)
  have hab : (0 : Nat) = 1 := congrArg Prod.snd (a.trans b.symm)
  omega

/-- C7: with task 10 and two workers the segments of round 0 are [0, 5] and [5, 10]; the
number 5 lies in both and both sieve calls emit it, so the segments overlap.  With task
1000 and six workers the segments of round 0 end at 996 and round 1 starts at 1000; the
number 997 lies in no segment of any worker in any round, so the segments leave a gap. -/
theorem segments_overlap_and_gap :
    segment 10 2 0 0 = some (0, 5) ∧ segment 10 2 1 0 = some (5, 10) ∧
    in_segment 10 2 0 0 5 = true ∧ in_segment 10 2 1 0 5 = true ∧
    found_primes 0 5 = [2, 3, 5] ∧ found_primes 5 10 = [5, 7] ∧
    (¬ ∀ n : Nat, ∃! ic : Nat × Nat, in_segment 10 2 ic.1 ic.2 n = true) ∧
    segment 1000 6 5 0 = some (830, 996) ∧ segment 1000 6 0 1 = some (1000, 1166) ∧
    ∀ i c, in_segment 1000 6 i c 997 = false := by
  refine ⟨by decide, by decide, by decide, by decide, by decide, by decide, fun h => ?_,
    by decide, by decide, fun i c => ?_⟩
  · obtain ⟨ic, _, huniq⟩ := h 5
    have a := huniq ((0 : Nat), (0 : Nat)) (by decide)
    have b := huniq ((1 : Nat), (0 : Nat)) (by decide)
    have hab : (0 : Nat) = 1 := congrArg Prod.fst (a.trans b.symm)
    omega
  · have hr : range_size 1000 6 = 166 := by decide
    have hc : cycle_size 1000 = 1000 := by decide
    rw [Bool.eq_false_iff]
    intro hin
    rw [in_segment_iff, hr, hc] at hin
    rcases Nat.eq_zero_or_pos c with h0 | h0
    · subst h0
      omega
    · omega

/-! ## Order of the emitted values -/

theorem emit_loop_ascending (bs : List Bool) (i cur : Nat) (acc : List Nat)
    (hp : acc.Pairwise (· < ·)) (hb : ∀ x ∈ acc, x < cur + i * 2 ∧ x % 2 = cur % 2) :
    (emit_loop bs i cur acc).Pairwise (· < ·) ∧
    ∀ x ∈ emit_loop bs i cur acc, x % 2 = cur % 2 := by
  induction bs generalizing i acc with
  | nil => exact ⟨hp, fun x hx => (hb x hx).2⟩
  | cons b rest ih =>
    unfold emit_loop
    apply ih
    · split_ifs
      · rw [List.pairwise_append]
        refine ⟨hp, List.pairwise_singleton _ _, ?_⟩
        intro x hx y hy
        rw [List.mem_singleton] at hy
        rw [hy]
        exact (hb x hx).1
      · exact hp
    · intro x hx
      split_ifs at hx
      · rw [List.mem_append, List.mem_singleton] at hx
        rcases hx with hx | hx
        · have := hb x hx
          exact ⟨by omega, this.2⟩
        · rw [hx]
          exact ⟨by omega, by omega⟩
      · have := hb x hx
        exact ⟨by omega, this.2⟩

theorem store_two_length (l : List Nat) : l.length ≤ (store_two l).length := by
  cases l <;> simp [store_two]

theorem find_primes_cells_ascending (from_ to_ : Nat) :
    (find_primes from_ to_).2.Pairwise (· < ·) ∧
    (find_primes from_ to_).1 ≤ (find_primes from_ to_).2.length := by
  have hodd : (if from_ % 2 = 0 then from_ + 1 else from_) % 2 = 1 := by
    split_ifs <;> omega
  obtain ⟨hpw, hpar⟩ := emit_loop_ascending (markers from_ to_) 0
    (if from_ % 2 = 0 then from_ + 1 else from_) [] List.Pairwise.nil (by simp)
  rw [hodd] at hpar
  unfold find_primes
  dsimp only
  generalize emit_loop (markers from_ to_) 0 (if from_ % 2 = 0 then from_ + 1 else from_) []
    = res at hpw hpar
  by_cases h2 : from_ ≤ 2
  · simp only [h2, if_true]
    refine ⟨?_, store_two_length res⟩
    cases res with
    | nil => simp [store_two]
    | cons a t =>
      simp only [store_two]
      rw [List.pairwise_cons] at hpw ⊢
      refine ⟨fun x hx => ?_, hpw.2⟩
      have h1 : a < x := hpw.1 x hx
      have h3 : x % 2 = 1 := hpar x (List.mem_cons_of_mem _ hx)
      have h4 : a % 2 = 1 := hpar a (List.mem_cons_self _ _)
      show 2 < x
      omega
  · simp only [h2, if_false]
    exact ⟨hpw, le_refl _⟩

/-- C9: for every `from` and `to` (in particular `from <= to`) the values that
`find_primes` leaves in `buffer[0..count)` are strictly ascending:
`buffer[k] < buffer[k+1]` whenever `k + 1 < count`, also when `from <= 2` and
`buffer[0]` has been overwritten with 2. -/
theorem find_primes_ascending (from_ to_ k : Nat) (hk : k + 1 < (find_primes from_ to_).1) :
    (find_primes from_ to_).2.getD k 0 < (find_primes from_ to_).2.getD (k + 1) 0 := by
  obtain ⟨hpw, hlen⟩ := find_primes_cells_ascending from_ to_
  have h1 : k + 1 < (find_primes from_ to_).2.length := by omega
  have h0 : k < (find_primes from_ to_).2.length := by omega
  rw [List.getD_eq_getElem _ _ h0, List.getD_eq_getElem _ _ h1]
  exact (List.pairwise_iff_getElem.1 hpw) k (k + 1) h0 h1 (by omega)

theorem find_primes_ascending_witness :
    0 + 1 < (find_primes 0 10).1 ∧
    (find_primes 0 10).2.getD 0 0 < (find_primes 0 10).2.getD (0 + 1) 0 :=
  ⟨by decide, find_primes_ascending 0 10 0 (by decide)⟩

/-! ## Concrete runs -/

/-- C1: on the segment [2, 10] the sieve returns count 3 and the buffer [2, 5, 7]: the
prime 3 of the segment is overwritten by the store of 2.  On [3, 7] it returns [3, 5]
and the prime 7 is missing; on [0, 1] it returns [2], which is outside the segment. -/
theorem find_primes_not_exact :
    find_primes 2 10 = (3, [2, 5, 7]) ∧ 3 ∉ found_primes 2 10 ∧
    find_primes 3 7 = (2, [3, 5]) ∧ 7 ∉ found_primes 3 7 ∧
    find_primes 0 1 = (1, [2]) ∧ 2 ∈ found_primes 0 1 := by
  decide

/-- C2: the run with task 3 and one worker stops after two rounds having written
2, 3, 3: the value 3 is written twice and the third prime 5 is not written. -/
theorem run_three_one_repeats :
    run_terminated 2 3 1 = true ∧ ∀ n, run_output (2 + n) 3 1 = [2, 3, 3] := by
  refine ⟨by decide, fun n => ?_⟩
  have h : run_cycles 2 (PrimeFinder.new 3 1).start =
      { parties := 1, task := 3, found := 4, terminated := true, output := [2, 3, 3],
        params := [{ from_ := 6, to_ := 9, count := 2, cycle_size := 3,
                     buffer := [3, 5] }] } := by decide
  simp [run_output, PrimeFinder.run, PrimeFinder.new, run_cycles_add]
  simp [PrimeFinder.new] at h
  rw [h, run_cycles_terminated _ _ rfl]

set_option maxRecDepth 100000 in
/-- The configuration of `main` (task 1000) on a machine with six processors: the six
segments of round 0 end at 996 and round 1 starts at 1000, so after two rounds the
output holds 991 and 1009 but not the prime 997. -/
theorem run_thousand_six_skips :
    segment 1000 6 5 0 = some (830, 996) ∧ segment 1000 6 0 1 = some (1000, 1166) ∧
    991 ∈ run_output 2 1000 6 ∧ 997 ∉ run_output 2 1000 6 ∧ 1009 ∈ run_output 2 1000 6 := by
  decide

/-- C4: with task 10 the run with two workers (2 divides the cycle width 10) stops having
written 2, 3, 5, 5, 7, 11, 13, 17, 19, 23, while the run with one worker stops having
written 2, 3, 5, 7, 11, 13, 17, 19, 23, 29. -/
theorem run_two_workers_differs :
    cycle_size 10 % 2 = 0 ∧
    run_terminated 3 10 2 = true ∧ run_output 3 10 2 = [2, 3, 5, 5, 7, 11, 13, 17, 19, 23] ∧
    run_terminated 3 10 1 = true ∧ run_output 3 10 1 = [2, 3, 5, 7, 11, 13, 17, 19, 23, 29] ∧
    run_output 3 10 2 ≠ run_output 3 10 1 := by
  decide

/-- C10: the run with task 10 and one worker has set `terminated` after three rounds, and
for any number of rounds from three on the output is 2, 3, 5, 7, 11, 13, 17, 19, 23, 29. -/
theorem run_ten_one :
    run_terminated 2 10 1 = false ∧ run_terminated 3 10 1 = true ∧
    ∀ n, run_output (3 + n) 10 1 = [2, 3, 5, 7, 11, 13, 17, 19, 23, 29] ∧
      run_terminated (3 + n) 10 1 = true := by
  refine ⟨by decide, by decide, fun n => ?_⟩
  have h : run_cycles 3 (PrimeFinder.new 10 1).start =
      { parties := 1, task := 10, found := 10, terminated := true,
        output := [2, 3, 5, 7, 11, 13, 17, 19, 23, 29],
        params := [{ from_ := 30, to_ := 40, count := 2, cycle_size := 10,
                     buffer := [23, 29] }] } := by decide
  simp [PrimeFinder.new] at h
  simp [run_output, run_terminated, PrimeFinder.run, PrimeFinder.new, run_cycles_add]
  rw [h, run_cycles_terminated _ _ rfl]
  simp

/-! ## The two sample segments -/

/-- C11: `find_primes(0, 10, buffer)` returns count 4 and leaves `buffer[0..4)` equal to
2, 3, 5, 7; the emission loop itself produces 1, 3, 5, 7 and the store of 2 replaces the
unmarked value 1. -/
theorem find_primes_zero_ten :
    (find_primes 0 10).1 = 4 ∧ found_primes 0 10 = [2, 3, 5, 7] ∧
    emit_loop (markers 0 10) 0 1 [] = [1, 3, 5, 7] := by
  decide

/-- C12: `find_primes(100, 120, buffer)` returns count 5 and leaves `buffer[0..5)` equal to
101, 103, 107, 109, 113; the root is 10, so the segment is sieved with the odd numbers
3, 5, 7, 9. -/
theorem find_primes_hundred :
    (find_primes 100 120).1 = 5 ∧ found_primes 100 120 = [101, 103, 107, 109, 113] ∧
    sqrt 120 = 10 := by
  decide

/-! ## The marker array after the marking phase -/

theorem mark_multiples_eq_writes (fuel i j from_ to_ : Nat) (bs : List Bool) :
    mark_multiples fuel i j from_ to_ bs =
      (mark_writes fuel i j from_ to_).foldl (fun l k => l.set k false) bs := by
  induction fuel generalizing j bs with
  | zero => rfl
  | succ fuel ih =>
    unfold mark_multiples mark_writes
    split_ifs
    · rw [List.foldl_cons]; exact ih _ _
    · rfl

theorem sieve_loop_eq_writes (fuel i root from_ to_ : Nat) (bs : List Bool) :
    sieve_loop fuel i root from_ to_ bs =
      (sieve_writes fuel i root from_ to_).foldl (fun l k => l.set k false) bs := by
  induction fuel generalizing i bs with
  | zero => rfl
  | succ fuel ih =>
    unfold sieve_loop sieve_writes
    split_ifs
    · rw [List.foldl_append, ← mark_multiples_eq_writes]; exact ih _ _
    · rfl

theorem foldl_set_false_length (ws : List Nat) (bs : List Bool) :
    (ws.foldl (fun l k => l.set k false) bs).length = bs.length := by
  induction ws generalizing bs with
  | nil => rfl
  | cons w ws ih => rw [List.foldl_cons, ih, List.length_set]

theorem foldl_set_false_true (ws : List Nat) (bs : List Bool) (k : Nat) :
    (ws.foldl (fun l k => l.set k false) bs)[k]? = some true ↔
      bs[k]? = some true ∧ k ∉ ws := by
  induction ws generalizing bs with
  | nil => simp
  | cons w ws ih =>
    rw [List.foldl_cons, ih, List.mem_cons, not_or]
    by_cases hwk : w = k
    · subst hwk
      constructor
      · intro h
        rw [List.getElem?_set] at h
        simp at h
      · intro h
        exact absurd rfl h.2.1
    · rw [List.getElem?_set_ne hwk]
      constructor
      · intro h
        exact ⟨h.1, fun e => hwk e.symm, h.2⟩
      · intro h
        exact ⟨h.1, h.2.2⟩

/-- The marker array is the all-true array of size `(to - from + 1) / 2` with the written
indices cleared. -/
theorem markers_eq_writes (from_ to_ : Nat) :
    markers from_ to_ = (marker_writes from_ to_).foldl (fun l k => l.set k false)
      (List.replicate (marker_size from_ to_) true) := by
  unfold markers marker_writes marker_size
  exact sieve_loop_eq_writes _ _ _ _ _ _

theorem markers_length (from_ to_ : Nat) :
    (markers from_ to_).length = marker_size from_ to_ := by
  rw [markers_eq_writes, foldl_set_false_length, List.length_replicate]

theorem markers_true_iff (from_ to_ k : Nat) :
    (markers from_ to_)[k]? = some true ↔
      k < marker_size from_ to_ ∧ k ∉ marker_writes from_ to_ := by
  rw [markers_eq_writes, foldl_set_false_true, List.getElem?_replicate]
  by_cases h : k < marker_size from_ to_ <;> simp [h]

theorem mem_mark_writes (fuel i j from_ to_ k : Nat) :
    k ∈ mark_writes fuel i j from_ to_ ↔
      ∃ s, s < fuel ∧ j + s * (i * 2) ≤ to_ ∧ k = (j + s * (i * 2) - from_) / 2 := by
  induction fuel generalizing j with
  | zero => simp [mark_writes]
  | succ fuel ih =>
    unfold mark_writes
    split_ifs with hj
    · rw [List.mem_cons, ih]
      constructor
      · rintro (h | ⟨s, hs, hle, hk⟩)
        · exact ⟨0, by omega, by simpa using hj, by simpa using h⟩
        · refine ⟨s + 1, by omega, ?_, ?_⟩
          · have e : j + (s + 1) * (i * 2) = j + i * 2 + s * (i * 2) := by ring
            rw [e]; exact hle
          · have e : j + (s + 1) * (i * 2) = j + i * 2 + s * (i * 2) := by ring
            rw [e]; exact hk
      · rintro ⟨s, hs, hle, hk⟩
        cases s with
        | zero => left; simpa using hk
        | succ s =>
          right
          have e : j + (s + 1) * (i * 2) = j + i * 2 + s * (i * 2) := by ring
          rw [e] at hle hk
          exact ⟨s, by omega, hle, hk⟩
    · simp only [List.not_mem_nil, false_iff]
      rintro ⟨s, _, hle, _⟩
      have : j ≤ j + s * (i * 2) := Nat.le_add_right _ _
      omega

theorem mem_sieve_writes (fuel i root from_ to_ k : Nat) :
    k ∈ sieve_writes fuel i root from_ to_ ↔
      ∃ u, u < fuel ∧ i + 2 * u ≤ root ∧
        k ∈ mark_writes (to_ + 1) (i + 2 * u) (first_multiple (i + 2 * u) from_) from_ to_ := by
  induction fuel generalizing i with
  | zero => simp [sieve_writes]
  | succ fuel ih =>
    unfold sieve_writes
    split_ifs with hi
    · rw [List.mem_append, ih]
      constructor
      · rintro (h | ⟨u, hu, hle, hk⟩)
        · exact ⟨0, by omega, by simpa using hi, by simpa using h⟩
        · refine ⟨u + 1, by omega, by omega, ?_⟩
          have e : i + 2 * (u + 1) = i + 2 + 2 * u := by ring
          rw [e]; exact hk
      · rintro ⟨u, hu, hle, hk⟩
        cases u with
        | zero => left; simpa using hk
        | succ u =>
          right
          have e : i + 2 * (u + 1) = i + 2 + 2 * u := by ring
          rw [e] at hle hk
          exact ⟨u, by omega, hle, hk⟩
    · simp only [List.not_mem_nil, false_iff]
      rintro ⟨u, _, hle, _⟩
      omega


/-! ## The first value marked for an odd number -/

/-- For odd `i >= 3` the start of the inner loop is the least odd multiple of `i` that is
at least `from` and at least `i * i`, and every odd multiple of `i` from there on is
reached by steps of `2 * i`. -/
theorem first_multiple_spec (i from_ : Nat) (hi : 3 ≤ i) (hodd : i % 2 = 1) :
    i ∣ first_multiple i from_ ∧ first_multiple i from_ % 2 = 1 ∧
    i * i ≤ first_multiple i from_ ∧ from_ ≤ first_multiple i from_ ∧
    ∀ x, i ∣ x → x % 2 = 1 → from_ ≤ x → i * i ≤ x →
      first_multiple i from_ ≤ x ∧ i * 2 ∣ x - first_multiple i from_ := by
  have hipos : 0 < i := by omega
  have hq2 : from_ + i - 1 < (from_ + i - 1) / i * i + i := Nat.lt_div_mul_add hipos
  have hc : ∃ c, c = max ((from_ + i - 1) / i * i) (i * i) ∧ i ∣ c ∧ i * i ≤ c ∧ from_ ≤ c ∧
      ∀ x, i ∣ x → from_ ≤ x → i * i ≤ x → c ≤ x := by
    refine ⟨_, rfl, ?_, le_max_right _ _, ?_, ?_⟩
    · rcases max_choice ((from_ + i - 1) / i * i) (i * i) with h | h <;> rw [h]
      · exact Dvd.intro_left _ rfl
      · exact Dvd.intro _ rfl
    · have := le_max_left ((from_ + i - 1) / i * i) (i * i)
      omega
    · intro x hx hfx hsq
      apply max_le _ hsq
      obtain ⟨m, rfl⟩ := hx
      have hlt : (from_ + i - 1) / i < m + 1 := by
        rw [Nat.div_lt_iff_lt_mul hipos]
        have : (m + 1) * i = i * m + i := by ring
        omega
      calc (from_ + i - 1) / i * i ≤ m * i := Nat.mul_le_mul_right _ (by omega)
        _ = i * m := Nat.mul_comm _ _
  obtain ⟨c, hcdef, hdvd, hsq, hfrom, hmin⟩ := hc
  have hodd_step : ∀ y x, i ∣ y → y % 2 = 1 → i ∣ x → x % 2 = 1 → y ≤ x → i * 2 ∣ x - y := by
    intro y x hy hy2 hx hx2 hle
    have h2 : 2 ∣ x - y := Nat.dvd_of_mod_eq_zero (by omega)
    have hi' : i ∣ x - y := Nat.dvd_sub' hx hy
    have hcop : Nat.Coprime i 2 := by
      rw [Nat.coprime_comm]
      exact (Nat.Prime.coprime_iff_not_dvd Nat.prime_two).2 (by omega)
    exact Nat.Coprime.mul_dvd_of_dvd_of_dvd hcop hi' h2
  unfold first_multiple
  simp only [← hcdef]
  by_cases hpar : c % 2 = 0
  · simp only [hpar, if_true]
    refine ⟨Dvd.dvd.add hdvd (dvd_refl i), by omega, by omega, by omega, ?_⟩
    intro x hx hx2 hfx hxsq
    have hcx := hmin x hx hfx hxsq
    have hne : c ≠ x := by
      intro e
      omega
    have hlt : c < x := lt_of_le_of_ne hcx hne
    have hd : i ∣ x - c := Nat.dvd_sub' hx hdvd
    have hle : i ≤ x - c := Nat.le_of_dvd (by omega) hd
    have hstep : c + i ≤ x := by omega
    exact ⟨hstep, hodd_step (c + i) x (Dvd.dvd.add hdvd (dvd_refl i)) (by omega) hx hx2 hstep⟩
  · simp only [hpar, if_false]
    refine ⟨hdvd, by omega, hsq, hfrom, ?_⟩
    intro x hx hx2 hfx hxsq
    have hcx := hmin x hx hfx hxsq
    exact ⟨hcx, hodd_step c x hdvd (by omega) hx hx2 hcx⟩


/-! ## Which values the marking phase clears -/

/-- The written indices are exactly the indices `(j - from) / 2` of the odd multiples `j`
of an odd `i` with `3 <= i <= root`, `i * i <= j` and `from <= j <= to`. -/
theorem mem_marker_writes (from_ to_ k : Nat) :
    k ∈ marker_writes from_ to_ ↔
      ∃ i j, 3 ≤ i ∧ i % 2 = 1 ∧ i ≤ sqrt to_ ∧ i ∣ j ∧ j % 2 = 1 ∧ i * i ≤ j ∧
        from_ ≤ j ∧ j ≤ to_ ∧ k = (j - from_) / 2 := by
  unfold marker_writes
  rw [mem_sieve_writes]
  constructor
  · rintro ⟨u, _, hle, hk⟩
    rw [mem_mark_writes] at hk
    obtain ⟨s, _, hjle, hkeq⟩ := hk
    obtain ⟨hdvd, hpar, hsq, hfrom, _⟩ :=
      first_multiple_spec (3 + 2 * u) from_ (by omega) (by omega)
    refine ⟨3 + 2 * u, first_multiple (3 + 2 * u) from_ + s * ((3 + 2 * u) * 2),
      by omega, by omega, hle, ?_, ?_, ?_, ?_, hjle, hkeq⟩
    · exact Dvd.dvd.add hdvd ⟨s * 2, by ring⟩
    · have : s * ((3 + 2 * u) * 2) = 2 * (s * (3 + 2 * u)) := by ring
      omega
    · exact le_trans hsq (Nat.le_add_right _ _)
    · exact le_trans hfrom (Nat.le_add_right _ _)
  · rintro ⟨i, j, hi3, hiodd, hiroot, hdvd, hjodd, hsq, hfrom, hjle, hk⟩
    obtain ⟨_, _, _, _, hmin⟩ := first_multiple_spec i from_ hi3 hiodd
    obtain ⟨hfm, s, hs⟩ := hmin j hdvd hjodd hfrom hsq
    have hi : 3 + 2 * ((i - 3) / 2) = i := by omega
    refine ⟨(i - 3) / 2, by omega, by omega, ?_⟩
    rw [hi, mem_mark_writes]
    have hj : j = first_multiple i from_ + s * (i * 2) := by
      have : i * 2 * s = s * (i * 2) := by ring
      omega
    refine ⟨s, ?_, by omega, by rw [← hj]; exact hk⟩
    have h1 : s * 1 ≤ s * (i * 2) := Nat.mul_le_mul_left _ (by omega)
    omega

/-- An odd value of the segment has its marker cleared exactly when it has an odd divisor
`i` with `3 <= i <= root` and `i * i` at most the value. -/
theorem value_marked_iff (from_ to_ x : Nat) (hodd : x % 2 = 1) (hfrom : from_ ≤ x)
    (hto : x ≤ to_) :
    (x - from_) / 2 ∈ marker_writes from_ to_ ↔
      ∃ i, 3 ≤ i ∧ i % 2 = 1 ∧ i ≤ sqrt to_ ∧ i ∣ x ∧ i * i ≤ x := by
  rw [mem_marker_writes]
  constructor
  · rintro ⟨i, j, h1, h2, h3, h4, h5, h6, h7, _, h9⟩
    have : j = x := by omega
    subst this
    exact ⟨i, h1, h2, h3, h4, h6⟩
  · rintro ⟨i, h1, h2, h3, h4, h6⟩
    exact ⟨i, x, h1, h2, h3, h4, hodd, h6, hfrom, hto, rfl⟩

/-- An odd value up to `to` has such a divisor exactly when it is neither 1 nor prime. -/
theorem odd_divisor_iff (to_ x : Nat) (hodd : x % 2 = 1) (hto : x ≤ to_) :
    (∃ i, 3 ≤ i ∧ i % 2 = 1 ∧ i ≤ sqrt to_ ∧ i ∣ x ∧ i * i ≤ x) ↔
      x ≠ 1 ∧ ¬ Nat.Prime x := by
  constructor
  · rintro ⟨i, h3, _, _, hdvd, hsq⟩
    have hix : i < x := by nlinarith
    refine ⟨by omega, fun hp => ?_⟩
    rcases (Nat.dvd_prime hp).1 hdvd with h | h <;> omega
  · rintro ⟨h1, hnp⟩
    have hx0 : 0 < x := by omega
    have hmp : Nat.Prime (Nat.minFac x) := Nat.minFac_prime h1
    have hmd : Nat.minFac x ∣ x := Nat.minFac_dvd x
    have hm2 : Nat.minFac x ≠ 2 := by
      intro e
      rw [e] at hmd
      omega
    have hmodd : Nat.minFac x % 2 = 1 := by
      rcases hmp.eq_two_or_odd with h | h
      · exact absurd h hm2
      · exact h
    have hsq : Nat.minFac x * Nat.minFac x ≤ x := by
      have := Nat.minFac_sq_le_self hx0 hnp
      rwa [sq] at this
    refine ⟨Nat.minFac x, ?_, hmodd, ?_, hmd, hsq⟩
    · have := hmp.two_le
      omega
    · rw [sqrt_eq, Nat.le_sqrt]
      exact le_trans hsq hto


/-! ## What the emission loop emits -/

theorem mem_emit_loop (bs : List Bool) (i cur : Nat) (acc : List Nat) (x : Nat) :
    x ∈ emit_loop bs i cur acc ↔
      x ∈ acc ∨ ∃ k, bs[k]? = some true ∧ x = cur + (i + k) * 2 := by
  induction bs generalizing i acc with
  | nil => simp [emit_loop]
  | cons b rest ih =>
    unfold emit_loop
    rw [ih]
    constructor
    · rintro (h | ⟨k, hk, hx⟩)
      · split_ifs at h with hb
        · rw [List.mem_append, List.mem_singleton] at h
          rcases h with h | h
          · exact Or.inl h
          · exact Or.inr ⟨0, by simp [hb], by simpa using h⟩
        · exact Or.inl h
      · refine Or.inr ⟨k + 1, by simpa using hk, ?_⟩
        rw [hx]; ring
    · rintro (h | ⟨k, hk, hx⟩)
      · left
        split_ifs
        · exact List.mem_append_left _ h
        · exact h
      · cases k with
        | zero =>
          left
          have hb : b = true := by simpa using hk
          simp [hb, hx]
        | succ k =>
          right
          refine ⟨k, by simpa using hk, ?_⟩
          rw [hx]; ring

/-- When `from` and `to` are not both odd, the emission loop emits exactly the odd values
of `[from, to]` that are 1 or prime. -/
theorem mem_emitted (from_ to_ x : Nat) (hft : from_ ≤ to_)
    (hpar : ¬ (from_ % 2 = 1 ∧ to_ % 2 = 1)) :
    x ∈ emit_loop (markers from_ to_) 0 (if from_ % 2 = 0 then from_ + 1 else from_) [] ↔
      x % 2 = 1 ∧ from_ ≤ x ∧ x ≤ to_ ∧ (x = 1 ∨ Nat.Prime x) := by
  rw [mem_emit_loop]
  simp only [List.not_mem_nil, false_or, Nat.zero_add, markers_true_iff, marker_size]
  constructor
  · rintro ⟨k, ⟨hk, hnw⟩, hx⟩
    have hodd : x % 2 = 1 := by split_ifs at hx <;> omega
    have hfx : from_ ≤ x := by split_ifs at hx <;> omega
    have hxt : x ≤ to_ := by split_ifs at hx <;> omega
    have hkx : k = (x - from_) / 2 := by split_ifs at hx <;> omega
    refine ⟨hodd, hfx, hxt, ?_⟩
    rw [hkx, value_marked_iff from_ to_ x hodd hfx hxt, odd_divisor_iff to_ x hodd hxt] at hnw
    by_cases h1 : x = 1
    · exact Or.inl h1
    · right
      by_contra hnp
      exact hnw ⟨h1, hnp⟩
  · rintro ⟨hodd, hfx, hxt, h⟩
    refine ⟨(x - from_) / 2, ⟨by omega, ?_⟩, by split_ifs <;> omega⟩
    rw [value_marked_iff from_ to_ x hodd hfx hxt, odd_divisor_iff to_ x hodd hxt]
    rintro ⟨h1, hnp⟩
    rcases h with h | h
    · exact h1 h
    · exact hnp h

/-- When `from` and `to` are not both odd, every index written by the marking loops lies
inside the marker array. -/
theorem marker_writes_in_bounds (from_ to_ k : Nat)
    (hpar : ¬ (from_ % 2 = 1 ∧ to_ % 2 = 1)) (hk : k ∈ marker_writes from_ to_) :
    k < marker_size from_ to_ := by
  rw [mem_marker_writes] at hk
  obtain ⟨i, j, _, _, _, _, hj, _, hfj, hjt, hkj⟩ := hk
  unfold marker_size
  omega

/-- C16: on the segment [3, 9] the marker array has 3 entries (indices 0, 1, 2) and the
marking loop, at `i = 3` and `j = 9`, writes index `(9 - 3) / 2 = 3`. -/
theorem marker_write_out_of_bounds :
    marker_size 3 9 = 3 ∧ (markers 3 9).length = 3 ∧ sqrt 9 = 3 ∧
    first_multiple 3 3 = 9 ∧ marker_writes 3 9 = [3] ∧
    ¬ ∀ k ∈ marker_writes 3 9, k < marker_size 3 9 := by
  decide

/-- C17, as the code has it: when `from <= to` are not both odd, the marker array has
`(to - from + 1) / 2` entries (rounded down), the emission loop looks at one value per
entry, in ascending order, and these values are exactly the odd values of `[from, to]`. -/
theorem marker_array_covers_odds (from_ to_ : Nat) (hft : from_ ≤ to_)
    (hpar : ¬ (from_ % 2 = 1 ∧ to_ % 2 = 1)) :
    (markers from_ to_).length = (to_ - from_ + 1) / 2 ∧
    (visited_values from_ to_).length = (markers from_ to_).length ∧
    (visited_values from_ to_).Pairwise (· < ·) ∧
    ∀ v, v ∈ visited_values from_ to_ ↔ from_ ≤ v ∧ v ≤ to_ ∧ v % 2 = 1 := by
  refine ⟨markers_length from_ to_, by simp [visited_values], ?_, ?_⟩
  · unfold visited_values
    rw [List.pairwise_map]
    exact List.Pairwise.imp (fun h => by omega) (List.pairwise_lt_range _)
  · intro v
    simp only [visited_values, List.mem_map, List.mem_range, markers_length, marker_size]
    constructor
    · rintro ⟨i, hi, rfl⟩
      split_ifs <;> omega
    · rintro ⟨h1, h2, h3⟩
      exact ⟨(v - from_) / 2, by omega, by split_ifs <;> omega⟩

theorem marker_array_covers_odds_witness :
    (markers 100 120).length = (120 - 100 + 1) / 2 ∧
    (visited_values 100 120).length = (markers 100 120).length ∧
    (visited_values 100 120).Pairwise (· < ·) ∧
    ∀ v, v ∈ visited_values 100 120 ↔ 100 ≤ v ∧ v ≤ 120 ∧ v % 2 = 1 :=
  marker_array_covers_odds 100 120 (by decide) (by decide)

/-- C17 as stated fails: on [0, 10] the marker array has 5 entries, not the rounded-up
half 6 of the width 11; on [3, 7] it has 2 entries, the emission loop looks at 3 and 5
only, and the odd value 7 of the segment is not visited. -/
theorem marker_array_not_rounded_up :
    (markers 0 10).length = 5 ∧ (10 - 0 + 1 + 1) / 2 = 6 ∧
    (markers 3 7).length = 2 ∧ (7 - 3 + 1 + 1) / 2 = 3 ∧
    visited_values 3 7 = [3, 5] ∧ 7 ∉ visited_values 3 7 := by
  decide


/-! ## Exactness of the sieve on the segments it handles -/

theorem find_primes_unfold (from_ to_ : Nat) :
    find_primes from_ to_ =
      ((emitted from_ to_).length,
        if from_ ≤ 2 then store_two (emitted from_ to_) else emitted from_ to_) := rfl

theorem mem_primes_in (from_ to_ x : Nat) :
    x ∈ primes_in from_ to_ ↔ from_ ≤ x ∧ x ≤ to_ ∧ Nat.Prime x := by
  simp only [primes_in, List.mem_filter, List.mem_range'_1, decide_eq_true_eq]
  constructor
  · rintro ⟨⟨h1, h2⟩, h3⟩
    exact ⟨h1, by omega, h3⟩
  · rintro ⟨h1, h2, h3⟩
    exact ⟨⟨h1, by omega⟩, h3⟩

theorem primes_in_ascending (from_ to_ : Nat) : (primes_in from_ to_).Pairwise (· < ·) :=
  List.Pairwise.filter _ (List.pairwise_lt_range' from_ _)

/-- Two strictly ascending lists with the same members are equal. -/
theorem ascending_ext (l₁ l₂ : List Nat) (h₁ : l₁.Pairwise (· < ·))
    (h₂ : l₂.Pairwise (· < ·)) (h : ∀ x, x ∈ l₁ ↔ x ∈ l₂) : l₁ = l₂ := by
  have n₁ : l₁.Nodup := List.Pairwise.imp (fun hab => Nat.ne_of_lt hab) h₁
  have n₂ : l₂.Nodup := List.Pairwise.imp (fun hab => Nat.ne_of_lt hab) h₂
  exact List.eq_of_perm_of_sorted ((List.perm_ext_iff_of_nodup n₁ n₂).2 h) h₁ h₂

theorem emitted_ascending (from_ to_ : Nat) : (emitted from_ to_).Pairwise (· < ·) :=
  (emit_loop_ascending (markers from_ to_) 0 _ [] List.Pairwise.nil (by simp)).1

/-- On a segment with `to >= 2`, `from != 2` and ends not both odd, the count is the number
of primes of the segment and the buffer prefix is their ascending list. -/
theorem sieve_exact (from_ to_ : Nat) (hft : from_ ≤ to_) (hto : 2 ≤ to_)
    (hne : from_ ≠ 2) (hpar : ¬ (from_ % 2 = 1 ∧ to_ % 2 = 1)) :
    (find_primes from_ to_).1 = (primes_in from_ to_).length ∧
    found_primes from_ to_ = primes_in from_ to_ := by
  have hmem : ∀ x, x ∈ emitted from_ to_ ↔
      x % 2 = 1 ∧ from_ ≤ x ∧ x ≤ to_ ∧ (x = 1 ∨ Nat.Prime x) :=
    fun x => mem_emitted from_ to_ x hft hpar
  have hasc := emitted_ascending from_ to_
  have hcells := (find_primes_cells_ascending from_ to_).1
  have hfound : found_primes from_ to_ = primes_in from_ to_ ∧
      (found_primes from_ to_).length = (emitted from_ to_).length := by
    unfold found_primes
    rw [find_primes_unfold] at hcells ⊢
    dsimp only at hcells ⊢
    by_cases h2 : from_ ≤ 2
    · simp only [h2, if_true] at hcells ⊢
      have h1mem : 1 ∈ emitted from_ to_ := (hmem 1).2 ⟨rfl, by omega, by omega, Or.inl rfl⟩
      generalize emitted from_ to_ = E at hmem hasc hcells h1mem ⊢
      cases E with
      | nil => simp at h1mem
      | cons a rest =>
        have ha : a = 1 := by
          have haodd := ((hmem a).1 (List.mem_cons_self _ _)).1
          rcases List.mem_cons.1 h1mem with h | h
          · exact h.symm
          · have := (List.pairwise_cons.1 hasc).1 1 h
            omega
        subst ha
        simp only [store_two, List.length_cons] at hcells ⊢
        have htake : List.take (rest.length + 1) (2 :: rest) = 2 :: rest := by
          apply List.take_of_length_le
          simp
        rw [htake]
        refine ⟨ascending_ext _ _ hcells (primes_in_ascending _ _) (fun x => ?_), by simp⟩
        rw [mem_primes_in, List.mem_cons]
        have hrest : x ∈ rest ↔ x ∈ 1 :: rest ∧ x ≠ 1 := by
          constructor
          · intro hx
            have := (List.pairwise_cons.1 hasc).1 x hx
            exact ⟨List.mem_cons_of_mem _ hx, by omega⟩
          · rintro ⟨hx, hx1⟩
            rcases List.mem_cons.1 hx with h | h
            · exact absurd h hx1
            · exact h
        rw [hrest, hmem]
        constructor
        · rintro (h | ⟨⟨_, h3, h4, h5⟩, h6⟩)
          · subst h
            exact ⟨by omega, hto, Nat.prime_two⟩
          · rcases h5 with h5 | h5
            · exact absurd h5 h6
            · exact ⟨h3, h4, h5⟩
        · rintro ⟨h3, h4, h5⟩
          rcases h5.eq_two_or_odd with h | h
          · exact Or.inl h
          · exact Or.inr ⟨⟨h, h3, h4, Or.inr h5⟩, fun e => Nat.not_prime_one (e ▸ h5)⟩
    · simp only [h2, if_false] at hcells ⊢
      rw [List.take_length]
      refine ⟨ascending_ext _ _ hasc (primes_in_ascending _ _) (fun x => ?_), rfl⟩
      rw [mem_primes_in, hmem]
      constructor
      · rintro ⟨_, h3, h4, h5⟩
        rcases h5 with h5 | h5
        · omega
        · exact ⟨h3, h4, h5⟩
      · rintro ⟨h3, h4, h5⟩
        rcases h5.eq_two_or_odd with h | h
        · omega
        · exact ⟨h, h3, h4, Or.inr h5⟩
  refine ⟨?_, hfound.1⟩
  rw [← hfound.1, hfound.2]
  rfl

/-- C14: for `from <= to` with `to >= 2`, `from != 2` and `from`, `to` not both odd,
`find_primes` returns the number of primes in `[from, to]` and `buffer[0..count)` is the
ascending list of these primes.  (The embedding agrees with the source for `to < 2^52`.) -/
theorem find_primes_exact (from_ to_ : Nat) (hft : from_ ≤ to_) (hto : 2 ≤ to_)
    (hne : from_ ≠ 2) (hpar : ¬ (from_ % 2 = 1 ∧ to_ % 2 = 1)) :
    (find_primes from_ to_).1 = (primes_in from_ to_).length ∧
    found_primes from_ to_ = primes_in from_ to_ :=
  sieve_exact from_ to_ hft hto hne hpar

theorem find_primes_exact_witness :
    (find_primes 100 120).1 = (primes_in 100 120).length ∧
    found_primes 100 120 = primes_in 100 120 :=
  find_primes_exact 100 120 (by decide) (by decide) (by decide) (by decide)


/-! ## The merge as a clamp of the stream of sieved values -/

/-- C13: with two workers, let worker 0 decrement `count_` and be preempted before its
`WaitForSingleObject`; worker 1 then arrives last, merges, resets `count_`, releases one
permit and returns; it calls `await` again, decrements `count_` from 2 to 1, and its own
`WaitForSingleObject` takes the permit released for the first round.  Worker 1 has then
returned from its second `await` although worker 0 has called `await` once and the merge
has run once.  One more step of worker 1 runs the merge a second time. -/
theorem barrier_permit_stolen :
    (Barrier.init 2).exec [0, 1, 1, 1] =
      some { parties := 2, count_ := 1, semaphore := 0, merges := 1,
             workers := [{ waiting := true, calls := 1, returns := 0 },
                         { waiting := false, calls := 2, returns := 2 }] } ∧
    (Barrier.init 2).exec [0, 1, 1, 1, 1] =
      some { parties := 2, count_ := 2, semaphore := 1, merges := 2,
             workers := [{ waiting := true, calls := 1, returns := 0 },
                         { waiting := false, calls := 3, returns := 3 }] } ∧
    ¬ ∀ (schedule : List Nat) (b : Barrier),
        (Barrier.init 2).exec schedule = some b → b.safe = true := by
  refine ⟨by decide, by decide, fun h => ?_⟩
  have := h [0, 1, 1, 1] _ rfl
  revert this
  decide

/-! ## The buffer of a worker with range width 1 -/

/-- C18: with task 1 and one worker the range width is 1 and `log(1) = 0`, so the buffer
gets `1 / (0 - 1.09f)`, about -0.92, cells, which converts to 0; the worker's first segment
is [0, 1], where `find_primes` stores into `buffer[0]` and returns count 1. -/
theorem buffer_too_small :
    range_size 1 1 = 1 ∧ Real.log ((range_size 1 1 : Nat) : ℝ) = ((0 : ℚ) : ℝ) ∧
    buffer_capacity 0 (range_size 1 1) = some 0 ∧
    segment 1 1 0 0 = some (0, 1) ∧
    (find_primes 0 1).1 = 1 ∧ (find_primes 0 1).2 = [2] := by
  have hr : range_size 1 1 = 1 := by decide
  refine ⟨hr, by rw [hr]; simp, ?_, by decide, by decide, by decide⟩
  rw [hr]
  unfold buffer_capacity density_constant
  norm_num

end FindPrimes
